import Mathlib

/-!
Verification of the asc VCS core (crate libasc) against its
natural-language specification.

The Rust sources are shallowly embedded: machine integers are Nat/Int with
explicit reduction modulo 2^64 where overflow matters, byte strings are
List Nat, HashMap / BTreeMap values are association lists with
first-match lookup, HashSet parent sets are duplicate-free lists, and
external library primitives (SHA-256, deflate, xdelta3, the word-level
diff of the similar crate, ECDSA) are universally quantified function
parameters, since their code is not part of this repository.
-/

namespace VCS

/-! ## Byte-level utilities -/

/-- The 8 little-endian bytes of a 64-bit value, as produced by
Rust i64/usize to_le_bytes (the value is reduced modulo 2^64). -/
def natLeBytes8 (n : Nat) : List Nat :=
  (List.range 8).map (fun i => n / 256 ^ i % 256)

/-- The 8 big-endian bytes of a 64-bit value. -/
def natBeBytes8 (n : Nat) : List Nat :=
  (natLeBytes8 n).reverse

/-- Twos-complement 64-bit reduction of an i64 value. -/
def i64ToNat64 (t : Int) : Nat :=
  (t % ((2 : Int) ^ 64)).toNat

/-- i64::to_le_bytes. -/
def i64LeBytes (t : Int) : List Nat :=
  natLeBytes8 (i64ToNat64 t)

/-- i64::to_be_bytes. -/
def i64BeBytes (t : Int) : List Nat :=
  natBeBytes8 (i64ToNat64 t)

/-- usize::from_le_bytes on an 8-byte little-endian list. -/
def leBytesToNat (bs : List Nat) : Nat :=
  bs.foldr (fun b acc => b + 256 * acc) 0

/-! ## Snapshot hashing (src/libasc/src/snapshot.rs)

The sha2 incremental hasher is modelled by the byte sequence it has
absorbed; finalize applies SHA-256 to that sequence.  The SHA-256
compression itself is external library code, so claims about
hash_from_parts are stated about the absorbed byte sequence. -/

/-- The state of a sha2 Sha256 hasher: the bytes absorbed so far. -/
structure Sha256Hasher where
  absorbed : List Nat

/-- Sha256::new. -/
def Sha256Hasher.new : Sha256Hasher := ⟨[]⟩

/-- Hasher::update. -/
def Sha256Hasher.update (h : Sha256Hasher) (bs : List Nat) : Sha256Hasher :=
  ⟨h.absorbed ++ bs⟩

/-- The byte sequence fed to SHA-256 by hash_from_parts in
src/libasc/src/snapshot.rs (lines 106-128): author bytes, message bytes,
timestamp.timestamp().to_le_bytes(), then for each entry of the files
BTreeMap (iterated in sorted-by-path key order) the content-hash bytes.
The author and message strings and the content hashes are byte lists;
files lists the (path bytes, content-hash bytes) entries of the BTreeMap
in its sorted iteration order. -/
def hash_from_parts_input (author message : List Nat) (timestamp : Int)
    (files : List (List Nat × List Nat)) : List Nat :=
  let h := Sha256Hasher.new
  let h := h.update author
  let h := h.update message
  let h := h.update (i64LeBytes timestamp)
  let h := files.foldl (fun st pf => st.update pf.2) h
  h.absorbed

/-- The byte sequence the claim (spec section 3 hash recipe) prescribes:
author public-key bytes, message bytes, timestamp seconds as big-endian
8 bytes, then for each (path, content-hash) pair in sorted-by-path order
the path bytes followed by the content-hash bytes, then the parent
hashes. -/
def claimedHashRecipeInput (authorKey message : List Nat) (timestamp : Int)
    (files : List (List Nat × List Nat)) (parents : List (List Nat)) : List Nat :=
  authorKey ++ message ++ i64BeBytes timestamp
    ++ (files.map (fun pf => pf.1 ++ pf.2)).flatten ++ parents.flatten

/-! ## Stream framing (src/libasc/src/sync/stream.rs) -/

/-- The bytes Stream::write puts on the wire for one frame:
bytes.len().to_le_bytes() (usize, 8 bytes), then the payload bytes. -/
def streamWriteFrame (payload : List Nat) : List Nat :=
  natLeBytes8 payload.length ++ payload

/-- Stream::read on a wire byte sequence: raw_read 8 header bytes,
decode them with usize::from_le_bytes, then raw_read that many payload
bytes.  Returns the payload and the unconsumed rest of the wire, or none
when the underlying reads fail for lack of bytes. -/
def streamReadFrame (wire : List Nat) : Option (List Nat × List Nat) :=
  if wire.length < 8 then none
  else
    let n := leBytesToNat (wire.take 8)
    let rest := wire.drop 8
    if rest.length < n then none
    else some (rest.take n, rest.drop n)

/-- The frame layout the claim prescribes: an 8-byte big-endian length
header followed by the payload. -/
def claimedBigEndianFrame (payload : List Nat) : List Nat :=
  natBeBytes8 payload.length ++ payload

/-! ## Association-list maps

HashMap and BTreeMap values of the source are modelled by association
lists: lookup returns the first match, insert replaces any entry with
the same key. -/

/-- HashMap::get - first entry with the given key. -/
def listLookup [DecidableEq α] : List (α × β) → α → Option β
  | [], _ => none
  | e :: rest, k => if e.1 = k then some e.2 else listLookup rest k

/-- HashMap::remove - drop every entry with the given key. -/
def listErase [DecidableEq α] : List (α × β) → α → List (α × β)
  | [], _ => []
  | e :: rest, k => if e.1 = k then listErase rest k else e :: listErase rest k

/-- HashMap::insert - the new binding replaces any previous one. -/
def listInsert [DecidableEq α] (m : List (α × β)) (k : α) (v : β) : List (α × β) :=
  (k, v) :: listErase m k

/-- Object hashes: only their identity matters to the repository state
machine, so they are modelled as Nat. -/
abbrev Hash := Nat

/-- P-256 public keys, modelled by their identity. -/
abbrev PubKey := Nat

/-! ## NamedHashes (src/libasc/src/repository.rs) -/

/-- NamedHashes: the branch / tag table, a HashMap from name to hash. -/
def NamedHashes := List (String × Hash)

instance : DecidableEq NamedHashes := by
  unfold NamedHashes
  infer_instance

/-- NamedHashes::create (HashMap::insert). -/
def NamedHashes.create (m : NamedHashes) (name : String) (h : Hash) : NamedHashes :=
  listInsert m name h

/-- NamedHashes::get. -/
def NamedHashes.get (m : NamedHashes) (name : String) : Option Hash :=
  listLookup m name

/-- NamedHashes::remove. -/
def NamedHashes.remove (m : NamedHashes) (name : String) : NamedHashes :=
  listErase m name

/-- NamedHashes::rename: remove the old binding, and only when it
existed insert its hash under the new name. -/
def NamedHashes.rename (m : NamedHashes) (old new : String) : NamedHashes :=
  match listLookup m old with
  | none => m
  | some h => listInsert (listErase m old) new h

/-! ## Graph (src/libasc/src/graph.rs) -/

/-- The snapshot DAG: a HashMap from node hash to its parent set. -/
structure Graph where
  links : List (Hash × List Hash)
deriving DecidableEq

/-- Graph::new. -/
def Graph.empty : Graph := ⟨[]⟩

/-- Graph::contains. -/
def Graph.contains (g : Graph) (h : Hash) : Bool :=
  (listLookup g.links h).isSome

/-- Graph::get_parents. -/
def Graph.getParents (g : Graph) (h : Hash) : Option (List Hash) :=
  listLookup g.links h

/-- Graph::insert_orphan: bind the hash to an empty parent set
(replacing any previous parent set, as HashMap::insert does). -/
def Graph.insertOrphan (g : Graph) (h : Hash) : Graph :=
  ⟨listInsert g.links h []⟩

/-- HashSet::insert on a parent set. -/
def parentsInsert (ps : List Hash) (p : Hash) : List Hash :=
  if p ∈ ps then ps else ps ++ [p]

/-- Graph::insert: if the parent is absent insert it as an orphan, then
add the parent to the parent set of the child (creating the entry of the child
with an empty set first if needed, as entry().or_default() does). -/
def Graph.insert (g : Graph) (h p : Hash) : Graph :=
  let g1 := if g.contains p then g else g.insertOrphan p
  let ps := (g1.getParents h).getD []
  ⟨listInsert g1.links h (parentsInsert ps p)⟩

/-- Graph::remove: drop the node and prune it from the parent set of every other node; also return the removed parent set. -/
def Graph.remove (g : Graph) (h : Hash) : Graph × Option (List Hash) :=
  (⟨(listErase g.links h).map (fun e => (e.1, e.2.filter (fun q => decide (q ≠ h))))⟩,
    listLookup g.links h)

/-- Graph::upsert: HashMap::remove the hash then HashMap::insert it with
the new parent set, returning the previous parent set. -/
def Graph.upsert (g : Graph) (h : Hash) (newParents : List Hash) :
    Graph × Option (List Hash) :=
  (⟨listInsert (listErase g.links h) h newParents⟩, listLookup g.links h)

/-- Graph::extend: insert every edge of the other graph.  (Nodes of the
other graph with an empty parent set contribute no edge, exactly as in
the source, which iterates parent sets only.) -/
def Graph.extend (g other : Graph) : Graph :=
  other.links.foldl (fun acc e => e.2.foldl (fun acc2 p => acc2.insert e.1 p) acc) g

/-- The DAG closure invariant: every hash appearing in a parent set is a
key of the graph. -/
def Graph.keysClosed (g : Graph) : Prop :=
  ∀ e ∈ g.links, ∀ p ∈ e.2, g.contains p = true

instance (g : Graph) : Decidable g.keysClosed := by
  unfold Graph.keysClosed
  infer_instance

/-- The BFS work loop of Graph::is_descendant: pop the queue front,
succeed on the target, otherwise enqueue the parents of the node; a missing
parent set is the bail-out error of the source.  The source loop has no fuel;
fuel exhaustion is also mapped to none, and every concrete run below is
given enough fuel that none can only mean the error path of the source. -/
def Graph.bfsFind (g : Graph) (target : Hash) : Nat → List Hash → Option Bool
  | 0, _ => none
  | _ + 1, [] => some false
  | fuel + 1, next :: queue =>
    if next = target then some true
    else
      match g.getParents next with
      | none => none
      | some ps => g.bfsFind target fuel (queue ++ ps)

/-- Graph::is_descendant - is b reachable from a along parent edges. -/
def Graph.isDescendant (g : Graph) (a b : Hash) (fuel : Nat) : Option Bool :=
  g.bfsFind b fuel [a]

/-! ## Actions and the repository state machine
(src/libasc/src/action.rs, src/libasc/src/repository.rs) -/

/-- The Action enum of src/libasc/src/action.rs. -/
inductive Action where
  | CreateBranch (name : String) (hash : Hash)
  | DeleteBranch (name : String) (hash : Hash)
  | MoveBranch (name : String) (old new : Hash)
  | RenameBranch (hash : Hash) (old new : String)
  | SwitchVersion (before after : Hash)
  | CreateTag (name : String) (hash : Hash)
  | RemoveTag (name : String) (hash : Hash)
  | RenameTag (old new : String) (hash : Hash)
  | TrashAdd (hash : Hash)
  | TrashRecover (hash : Hash)
  | OpenAccount (name : String) (id : PubKey)
  | CloseAccount (name : String) (id : PubKey)
  | RenameAccount (old new : String) (id : PubKey)
deriving DecidableEq

/-- The inverse computed inside Repository::undo_action. -/
def Action.inverse : Action → Action
  | .CreateBranch n h => .DeleteBranch n h
  | .DeleteBranch n h => .CreateBranch n h
  | .MoveBranch n old new => .MoveBranch n new old
  | .RenameBranch h old new => .RenameBranch h new old
  | .SwitchVersion b a => .SwitchVersion a b
  | .CreateTag n h => .RemoveTag n h
  | .RemoveTag n h => .CreateTag n h
  | .RenameTag old new h => .RenameTag new old h
  | .TrashAdd h => .TrashRecover h
  | .TrashRecover h => .TrashAdd h
  | .OpenAccount n id => .CloseAccount n id
  | .CloseAccount n id => .OpenAccount n id
  | .RenameAccount old new id => .RenameAccount new old id

/-- ActionHistory: the undo / redo stack with its cursor. -/
structure ActionHistory where
  inner : List Action
  index : Nat
deriving DecidableEq

/-- ActionHistory::new. -/
def ActionHistory.empty : ActionHistory := ⟨[], 0⟩

/-- ActionHistory::push: truncate at the cursor, append, advance. -/
def ActionHistory.push (h : ActionHistory) (a : Action) : ActionHistory :=
  ⟨h.inner.take h.index ++ [a], h.index + 1⟩

/-- ActionHistory::undo: step the cursor back and return the action at
the new cursor position, or none at the bottom of the stack. -/
def ActionHistory.undo (h : ActionHistory) : ActionHistory × Option Action :=
  if h.index = 0 then (h, none)
  else (⟨h.inner, h.index - 1⟩, h.inner[h.index - 1]?)

/-- ActionHistory::redo: step the cursor forward and return the action
it now covers, or none at the top of the stack. -/
def ActionHistory.redo (h : ActionHistory) : ActionHistory × Option Action :=
  if h.inner.length < h.index + 1 then (h, none)
  else (⟨h.inner, h.index + 1⟩, h.inner[h.index]?)

/-- The fields of a User read by apply_action. -/
structure UserState where
  name : String
  closed : Bool
deriving DecidableEq

/-- The slice of Repository state that apply_action touches: branch and
tag tables, HEAD, the user registry (keyed by public key) and the trash
(modelled by its hash list in insertion order; entry timestamps are
never read by the embedded operations). -/
structure RepoState where
  branches : NamedHashes
  tags : NamedHashes
  currentHash : Hash
  users : List (PubKey × UserState)
  trash : List Hash
deriving DecidableEq

/-- Trash::add: push the hash at the end of the entry list. -/
def trashAdd (entries : List Hash) (h : Hash) : List Hash :=
  entries ++ [h]

/-- Trash::remove: drop the first entry with the given hash. -/
def trashRemove : List Hash → Hash → List Hash
  | [], _ => []
  | e :: rest, h => if e = h then rest else e :: trashRemove rest h

/-- Update the closed flag of the user with the given key, or fail as
the unwrap-or-bail of the source does when no such user exists. -/
def usersSetClosed (st : RepoState) (id : PubKey) (b : Bool) : Option RepoState :=
  match listLookup st.users id with
  | none => none
  | some u => some { st with users := listInsert st.users id { u with closed := b } }

/-- Update the name of the user with the given key. -/
def usersSetName (st : RepoState) (id : PubKey) (n : String) : Option RepoState :=
  match listLookup st.users id with
  | none => none
  | some u => some { st with users := listInsert st.users id { u with name := n } }

/-- Repository::apply_action (src/libasc/src/repository.rs lines
275-348), transcribed arm by arm.  Note two anomalies that are in the
source: the CreateBranch arm removes the branch and the DeleteBranch arm
creates it (the opposite of the symmetric tag arms), and the OpenAccount
arm sets closed to true exactly like the CloseAccount arm. -/
def applyAction (st : RepoState) : Action → Option RepoState
  | .CreateBranch name _ => some { st with branches := st.branches.remove name }
  | .DeleteBranch name hash => some { st with branches := st.branches.create name hash }
  | .MoveBranch name _ new => some { st with branches := st.branches.create name new }
  | .RenameBranch _ old new => some { st with branches := st.branches.rename old new }
  | .SwitchVersion _ after => some { st with currentHash := after }
  | .CreateTag name hash => some { st with tags := st.tags.create name hash }
  | .RemoveTag name _ => some { st with tags := st.tags.remove name }
  | .RenameTag old new _ => some { st with tags := st.tags.rename old new }
  | .CloseAccount _ id => usersSetClosed st id true
  | .OpenAccount _ id => usersSetClosed st id true
  | .RenameAccount _ new id => usersSetName st id new
  | .TrashAdd hash => some { st with trash := trashAdd st.trash hash }
  | .TrashRecover hash => some { st with trash := trashRemove st.trash hash }

/-- Repository::undo_action: pop the history cursor, compute the
inverse, apply it.  Returns the new repository state, the new history
and the applied inverse; none models the propagated apply error. -/
def undoAction (st : RepoState) (hist : ActionHistory) :
    Option (RepoState × ActionHistory × Option Action) :=
  match hist.undo with
  | (hist2, none) => some (st, hist2, none)
  | (hist2, some a) =>
    match applyAction st a.inverse with
    | none => none
    | some st2 => some (st2, hist2, some a.inverse)

/-- Repository::redo_action: step the cursor forward and re-apply the
action it covers. -/
def redoAction (st : RepoState) (hist : ActionHistory) :
    Option (RepoState × ActionHistory × Option Action) :=
  match hist.redo with
  | (hist2, none) => some (st, hist2, none)
  | (hist2, some a) =>
    match applyAction st a with
    | none => none
    | some st2 => some (st2, hist2, some a)

/-- undo_action then redo_action, keeping state and history. -/
def undoThenRedo (st : RepoState) (hist : ActionHistory) :
    Option (RepoState × ActionHistory) :=
  match undoAction st hist with
  | none => none
  | some (st2, hist2, _) =>
    match redoAction st2 hist2 with
    | none => none
    | some (st3, hist3, _) => some (st3, hist3)

/-- undo_action twice, keeping state and history. -/
def undoTwice (st : RepoState) (hist : ActionHistory) :
    Option (RepoState × ActionHistory) :=
  match undoAction st hist with
  | none => none
  | some (st2, hist2, _) =>
    match undoAction st2 hist2 with
    | none => none
    | some (st3, hist3, _) => some (st3, hist3)

/-! ## Trash membership (src/libasc/src/repository.rs trash_contains) -/

/-- The TrashStatus enum of src/libasc/src/trash.rs. -/
inductive TrashStatus where
  | Direct
  | Indirect (h : Hash)
deriving DecidableEq

/-- The entry loop of Repository::trash_contains: the first directly
trashed entry (in insertion order) that the hash descends from gives
Indirect.  The outer none models the unwrap panic of the source on a
reachability error (or exhausted fuel). -/
def trashIndirect (history : Graph) (h : Hash) (fuel : Nat) :
    List Hash → Option (Option TrashStatus)
  | [] => some none
  | t :: rest =>
    match history.isDescendant h t fuel with
    | none => none
    | some true => some (some (.Indirect t))
    | some false => trashIndirect history h fuel rest

/-- Repository::trash_contains (src/libasc/src/repository.rs lines
397-409): Direct when the hash is listed in the trash, otherwise scan
the trash entries for an ancestor. -/
def trashContains (history : Graph) (trash : List Hash) (h : Hash)
    (fuel : Nat) : Option (Option TrashStatus) :=
  if h ∈ trash then some (some .Direct)
  else trashIndirect history h fuel trash

/-! ## Pull (src/libasc/src/sync/pull.rs) -/

/-- dfs_get (src/libasc/src/sync/utils.rs): walk the graph from a start
hash following parent edges, accumulating the visited subgraph; a
missing parent set is the unwrap panic of the source (mapped, together with
fuel exhaustion, to none). -/
def dfsGet (g : Graph) : Nat → Hash → Graph → Option Graph
  | 0, _, _ => none
  | fuel + 1, start, chain =>
    match g.getParents start with
    | none => none
    | some ps =>
      let chain1 := if ps.isEmpty then chain.insertOrphan start else chain
      ps.foldlM (fun ch p => dfsGet g fuel p (ch.insert start p)) chain1

/-- The BranchPullResult enum of src/libasc/src/sync/pull.rs. -/
inductive BranchPullResult where
  | NotOnRemote
  | UpToDate
  | FastForward (g : Graph) (remoteTip : Hash)
  | Conflict (g : Graph) (localTip remoteTip : Hash)
deriving DecidableEq

/-- client_pull_one_branch (src/libasc/src/sync/pull.rs lines 124-172),
with the network abstracted to its two inputs: the reply of the remote to
(branch, local_tip), and the graph patch the set-reconciliation
subconversation delivers.  The local branch-reachable subgraph is built
with dfs_get, extended with the received changes, and the merged graph
decides FastForward (remote tip descends from local tip) against
Conflict. -/
def clientPullOneBranch (history : Graph) (branches : NamedHashes)
    (branchName : String) (remoteReply : Option Hash) (changes : Graph)
    (fuel : Nat) : Option BranchPullResult := do
  let localTip ← branches.get branchName
  match remoteReply with
  | none => some .NotOnRemote
  | some remoteTip =>
    if localTip = remoteTip then some .UpToDate
    else do
      let bg ← dfsGet history fuel localTip Graph.empty
      let merged := bg.extend changes
      let desc ← merged.isDescendant remoteTip localTip fuel
      if desc then some (.FastForward merged remoteTip)
      else some (.Conflict merged localTip remoteTip)

/-- The slice of Repository state the pull loop of
handle_pull_as_client mutates. -/
structure PullState where
  history : Graph
  branches : NamedHashes
  actions : ActionHistory
deriving DecidableEq

/-- The per-branch application step in handle_pull_as_client
(src/libasc/src/sync/pull.rs lines 200-242): FastForward extends the
DAG, moves the branch to the remote tip and records a MoveBranch action;
Conflict extends the DAG, creates name-local at the former local tip,
points the original name at the remote tip, and records a MoveBranch
then a CreateBranch action. -/
def applyBranchPullResult (st : PullState) (name : String) :
    BranchPullResult → Option PullState
  | .NotOnRemote => some st
  | .UpToDate => some st
  | .FastForward g remoteTip => do
    let old ← st.branches.get name
    some { history := st.history.extend g
           branches := st.branches.create name remoteTip
           actions := st.actions.push (.MoveBranch name old remoteTip) }
  | .Conflict g localTip remoteTip =>
    some { history := st.history.extend g
           branches := (st.branches.create (name ++ "-local") localTip).create name remoteTip
           actions := (st.actions.push (.MoveBranch name localTip remoteTip)).push
             (.CreateBranch (name ++ "-local") localTip) }

/-! ## Content store (src/libasc/src/repository.rs, content.rs)

The external primitives used by the content path - SHA-256 on strings
(hash_raw_bytes), deflate compression, xdelta3 encode / decode and the
word-level diff ratio of the similar crate - are library code, not code
of this repository, so they are bundled as an abstract oracle the
theorems quantify over. -/

/-- The Content enum of src/libasc/src/content.rs: a compressed literal
or an xdelta edit against another content hash. -/
inductive Content where
  | Literal (bytes : List Nat)
  | Delta (original : Hash) (edit : List Nat)
deriving DecidableEq

/-- The blob store: content objects addressed by hash. -/
structure ContentStore where
  blobs : List (Hash × Content)
deriving DecidableEq

/-- The external content primitives.  decompress combines
decompress_data with the String::from_utf8 conversion; similarity is
TextDiff::from_words(old, new).ratio() as an exact rational. -/
structure ContentOracle where
  sha256 : String → Hash
  compress : String → List Nat
  decompress : List Nat → Option String
  xdeltaEncode : String → String → List Nat
  xdeltaDecode : List Nat → String → Option String
  similarity : String → String → Rat

/-- MIN_DELTA_SIMILARITY (src/libasc/src/repository.rs line 669).  The
source constant is the f32 literal 0.65; it is modelled as the exact
rational. -/
def MIN_DELTA_SIMILARITY : Rat := 65 / 100

/-- Repository::fetch_content_object: read the blob at the hash. -/
def fetchContentObject (store : ContentStore) (h : Hash) : Option Content :=
  listLookup store.blobs h

/-- Content::resolve: decompress a literal, or recursively resolve the
delta base and apply xdelta3::decode.  Delta chains must terminate at a
literal; fuel bounds the recursion, and every concrete run below has
enough fuel. -/
def resolveContent (o : ContentOracle) (store : ContentStore) :
    Nat → Content → Option String
  | 0, _ => none
  | _ + 1, .Literal bs => o.decompress bs
  | fuel + 1, .Delta orig edit => do
    let c ← fetchContentObject store orig
    let source ← resolveContent o store fuel c
    o.xdeltaDecode edit source

/-- Repository::fetch_string_content. -/
def fetchStringContent (o : ContentOracle) (store : ContentStore)
    (h : Hash) (fuel : Nat) : Option String := do
  let c ← fetchContentObject store h
  resolveContent o store fuel c

/-- Repository::save_content_object: write the object at the hash. -/
def saveContentObject (store : ContentStore) (object : Content) (h : Hash) :
    ContentStore :=
  ⟨listInsert store.blobs h object⟩

/-- Repository::save_content_raw: hash the string, store the compressed
literal under that hash, return the hash. -/
def saveContentRaw (o : ContentOracle) (store : ContentStore)
    (content : String) : ContentStore × Hash :=
  let h := o.sha256 content
  (saveContentObject store (.Literal (o.compress content)) h, h)

/-- Delta::new_unchecked(old, new): the original field is the hash of
the old (resolved basis) string, the edit is xdelta3::encode(new, old). -/
def deltaNewUnchecked (o : ContentOracle) (old new : String) : Content :=
  .Delta (o.sha256 old) (o.xdeltaEncode new old)

/-- Repository::save_content_delta_unchecked: re-resolve the basis,
hash the new content, store the delta object under that hash. -/
def saveContentDeltaUnchecked (o : ContentOracle) (store : ContentStore)
    (content : String) (basis : Hash) (fuel : Nat) :
    Option (ContentStore × Hash) := do
  let original ← fetchStringContent o store basis fuel
  let h := o.sha256 content
  some (saveContentObject store (deltaNewUnchecked o original content) h, h)

/-- Repository::save_content_delta: resolve the basis; when the
word-level diff ratio is below MIN_DELTA_SIMILARITY answer the inner
none (the caller falls back to a literal), otherwise store the delta.
The outer none is the propagated resolve error. -/
def saveContentDelta (o : ContentOracle) (store : ContentStore)
    (content : String) (basis : Hash) (fuel : Nat) :
    Option (Option (ContentStore × Hash)) := do
  let original ← fetchStringContent o store basis fuel
  if o.similarity original content < MIN_DELTA_SIMILARITY then
    some none
  else do
    let r ← saveContentDeltaUnchecked o store content basis fuel
    some (some r)

/-- Repository::save_content (src/libasc/src/repository.rs lines
736-746): no basis means a literal; with a basis, try the
similarity-gated delta and fall back to a literal when it is refused. -/
def saveContent (o : ContentOracle) (store : ContentStore)
    (content : String) (basis : Option Hash) (fuel : Nat) :
    Option (ContentStore × Hash) :=
  match basis with
  | none => some (saveContentRaw o store content)
  | some b =>
    match saveContentDelta o store content b fuel with
    | none => none
    | some none => some (saveContentRaw o store content)
    | some (some r) => some r

/-! ## save_snapshot (src/libasc/src/repository.rs lines 798-814) -/

/-- The snapshot fields save_snapshot reads: the stored hash, the parent
set, and the public key carried by the signature.  Hash recomputation
(Snapshot::rehash) and signature verification live outside src in this
repository version, so they enter as abstract functions. -/
structure SnapshotRec where
  hash : Hash
  parents : List Hash
  authorKey : PubKey
deriving DecidableEq

/-- The slice of Repository state save_snapshot touches. -/
structure SaveRepo where
  history : Graph
  users : List (PubKey × UserState)
  blobs : List (Hash × SnapshotRec)
deriving DecidableEq

/-- Repository::save_snapshot, in source order: rehash the snapshot,
insert its parent edges into the in-memory DAG, only then check that the
key of the signature belongs to a known user and that the snapshot verifies,
and finally persist it.  The Bool is false exactly when the source
bails with an error - note the DAG edges are already inserted then. -/
def saveSnapshot (rehashFn : SnapshotRec → Hash) (verifyFn : SnapshotRec → Bool)
    (repo : SaveRepo) (s : SnapshotRec) : SaveRepo × Bool :=
  let s2 : SnapshotRec := { s with hash := rehashFn s }
  let hist := s2.parents.foldl (fun g p => g.insert s2.hash p) repo.history
  let repo2 := { repo with history := hist }
  if (listLookup repo.users s2.authorKey).isNone then (repo2, false)
  else if verifyFn s2 = false then (repo2, false)
  else ({ repo2 with blobs := listInsert repo2.blobs s2.hash s2 }, true)

/-! ## Sync conversation openings (src/libasc/src/sync/utils.rs,
clone.rs, entry.rs)

Each conversation handler is abstracted to the ordered trace of its
stream operations, tagged by what is sent or received. -/

/-- What a protocol message carries. -/
inductive MsgTag where
  | projectCode
  | secretErr
  | secretOk
  | authSig
  | loginResult
  | projectName
  | branchesMap
  | tagsMap
  | currentHash
  | usersMap
  | objectsBlob
deriving DecidableEq

/-- One stream operation, seen from the side whose trace is taken. -/
inductive NetEvent where
  | send (t : MsgTag)
  | recv (t : MsgTag)
deriving DecidableEq

/-- The stream operations of handle_login (src/libasc/src/sync/utils.rs
lines 39-82), run by the server for Pull and Push: receive the project code of the client; on mismatch send Err(()) and return - before any secret is
generated or sent; on match send the fresh 32-byte secret, receive the
signature, send the login result. -/
def handleLoginEvents (codesMatch : Bool) : List NetEvent :=
  .recv .projectCode ::
    (if codesMatch then [.send .secretOk, .recv .authSig, .send .loginResult]
     else [.send .secretErr])

/-- The stream operations of handle_clone_as_server
(src/libasc/src/sync/clone.rs lines 58-131): the secret is sent
unconditionally as the first message - no project code is ever received
- then the signature is checked against the user registry; only a known
user gets Ok and the repository payload. -/
def cloneServerEvents (userKnown : Bool) : List NetEvent :=
  .send .secretOk :: .recv .authSig ::
    (if userKnown then
      [.send .loginResult, .send .projectName, .send .projectCode,
       .send .branchesMap, .send .tagsMap, .send .currentHash,
       .send .usersMap, .send .objectsBlob]
     else [.send .loginResult])

/-- The stream operations of handle_clone_as_client
(src/libasc/src/sync/clone.rs lines 8-56): the first operation receives
the server secret; no project code is sent. -/
def cloneClientEvents (loginOk : Bool) : List NetEvent :=
  .recv .secretOk :: .send .authSig ::
    (if loginOk then
      [.recv .loginResult, .recv .projectName, .recv .projectCode,
       .recv .branchesMap, .recv .tagsMap, .recv .currentHash,
       .recv .usersMap, .recv .objectsBlob]
     else [.recv .loginResult])

/-- The opening the claim prescribes for a server-side conversation
trace: the first operation receives the project code of the client, and on a
mismatch the whole trace is that receive followed by the Err(()) reply,
with no secret issued. -/
def opensWithProjectCodeHandshake (trace : List NetEvent)
    (codesMatch : Bool) : Prop :=
  trace.head? = some (.recv .projectCode) ∧
    (codesMatch = false → trace = [.recv .projectCode, .send .secretErr])

/-! ## Concrete inputs used by the witness theorems -/

/-- A concrete content oracle for witnesses: every primitive is a
simple total function. -/
def oracleW : ContentOracle :=
  ⟨fun s => s.length, fun _ => [], fun _ => some "ab",
   fun _ _ => [], fun _ _ => none, fun _ _ => 1⟩

/-- A concrete store holding one literal blob at hash 2, which
oracleW resolves to the string ab of length 2. -/
def storeW : ContentStore := ⟨[(2, .Literal [7])]⟩

/-- The repository of the undo / redo scenario just after the branch
dev was created at HEAD = 10 (main also points at 10). -/
def pushStateW : RepoState :=
  { branches := NamedHashes.create [("main", 10)] "dev" 10
    tags := []
    currentHash := 10
    users := []
    trash := [] }

/-- Its action history: the recorded CreateBranch. -/
def pushHistW : ActionHistory :=
  ActionHistory.empty.push (.CreateBranch "dev" 10)

/-- The state after additionally renaming dev to feature. -/
def renameStateW : RepoState :=
  { pushStateW with branches := pushStateW.branches.rename "dev" "feature" }

/-- Its action history: CreateBranch then RenameBranch. -/
def renameHistW : ActionHistory :=
  pushHistW.push (.RenameBranch 10 "dev" "feature")

/-- A repository with the single user bob (key 5) whose account was
just closed by the recorded CloseAccount action. -/
def closedStateW : RepoState :=
  { branches := [], tags := [], currentHash := 0
    users := [(5, ⟨"bob", true⟩)], trash := [] }

/-- The recorded CloseAccount, ready to be undone. -/
def closedHistW : ActionHistory := ⟨[.CloseAccount "bob" 5], 1⟩

/-- The parent chain s1 = 1 <- s2 = 2 <- s3 = 3. -/
def chainHistoryW : Graph := ⟨[(1, []), (2, [1]), (3, [2])]⟩

/-- The trash after adding s2 = 2. -/
def chainTrashW : List Hash := trashAdd [] 2

/-- Pull witness: local history 1 <- 2 with branch main at 2. -/
def pullStateW : PullState :=
  ⟨⟨[(1, []), (2, [1])]⟩, [("main", 2)], ActionHistory.empty⟩

/-- Pull witness: the received patch, remote tip 3 with parent 1, so
the remote tip does not descend from the local tip 2. -/
def pullChangesW : Graph := ⟨[(3, [1])]⟩

/-- Pull witness: what dfs_get collects from hash 2. -/
def pullDfsW : Graph := ⟨[(1, []), (2, [1])]⟩

/-! # Theorems

Helper lemmas first, then one theorem (plus witness or counterexample)
per claim. -/

/-! ## Association-map lemmas -/

theorem listLookup_listErase_ne [DecidableEq α] {m : List (α × β)} {k k' : α}
    (hne : k' ≠ k) : listLookup (listErase m k) k' = listLookup m k' := by
  induction m with
  | nil => rfl
  | cons e rest ih =>
    by_cases he : e.1 = k
    · have h1 : ¬ e.1 = k' := by rw [he]; exact fun hh => hne hh.symm
      rw [listErase, if_pos he, ih, listLookup, if_neg h1]
    · rw [listErase, if_neg he, listLookup, listLookup]
      by_cases h2 : e.1 = k'
      · rw [if_pos h2, if_pos h2]
      · rw [if_neg h2, if_neg h2, ih]

theorem listLookup_listInsert_self [DecidableEq α] {m : List (α × β)}
    {k : α} {v : β} : listLookup (listInsert m k v) k = some v := by
  simp [listInsert, listLookup]

theorem listLookup_listInsert [DecidableEq α] {m : List (α × β)}
    {k k' : α} {v : β} :
    listLookup (listInsert m k v) k'
      = if k' = k then some v else listLookup m k' := by
  by_cases h : k' = k
  · subst h; simp [listLookup_listInsert_self]
  · have h1 : ¬ k = k' := fun hh => h hh.symm
    simp only [listInsert, listLookup, h1, if_neg, if_false]
    simp [h, listLookup_listErase_ne h]

theorem mem_listErase [DecidableEq α] {m : List (α × β)} {k : α} {x : α × β} :
    x ∈ listErase m k ↔ x ∈ m ∧ x.1 ≠ k := by
  induction m with
  | nil => simp [listErase]
  | cons e rest ih =>
    by_cases he : e.1 = k
    · rw [listErase, if_pos he, ih]
      constructor
      · rintro ⟨h1, h2⟩
        exact ⟨List.mem_cons_of_mem _ h1, h2⟩
      · rintro ⟨h1, h2⟩
        rcases List.mem_cons.mp h1 with h3 | h3
        · subst h3; exact absurd he h2
        · exact ⟨h3, h2⟩
    · rw [listErase, if_neg he]
      constructor
      · intro h1
        rcases List.mem_cons.mp h1 with h3 | h3
        · subst h3; exact ⟨List.mem_cons_self _ _, he⟩
        · obtain ⟨h4, h5⟩ := ih.mp h3
          exact ⟨List.mem_cons_of_mem _ h4, h5⟩
      · rintro ⟨h1, h2⟩
        rcases List.mem_cons.mp h1 with h3 | h3
        · subst h3; exact List.mem_cons_self _ _
        · exact List.mem_cons_of_mem _ (ih.mpr ⟨h3, h2⟩)

theorem mem_listInsert [DecidableEq α] {m : List (α × β)} {k : α} {v : β}
    {x : α × β} :
    x ∈ listInsert m k v ↔ x = (k, v) ∨ (x ∈ m ∧ x.1 ≠ k) := by
  simp [listInsert, mem_listErase]

theorem listLookup_isSome_iff [DecidableEq α] {m : List (α × β)} {k : α} :
    (listLookup m k).isSome = true ↔ ∃ v, (k, v) ∈ m := by
  induction m with
  | nil => simp [listLookup]
  | cons e rest ih =>
    obtain ⟨a, b⟩ := e
    by_cases he : a = k
    · subst he
      simp [listLookup]
    · simp only [listLookup, he, if_false, ih]
      constructor
      · rintro ⟨v, hv⟩
        exact ⟨v, List.mem_cons_of_mem _ hv⟩
      · rintro ⟨v, hv⟩
        rcases List.mem_cons.mp hv with h1 | h1
        · cases h1; exact absurd rfl he
        · exact ⟨v, h1⟩

theorem listLookup_eq_some_mem [DecidableEq α] {m : List (α × β)} {k : α}
    {v : β} (h : listLookup m k = some v) : (k, v) ∈ m := by
  induction m with
  | nil => simp [listLookup] at h
  | cons e rest ih =>
    by_cases he : e.1 = k
    · rw [listLookup, if_pos he] at h
      injection h with h2
      subst h2
      subst he
      rw [Prod.mk.eta]
      exact List.mem_cons_self _ _
    · rw [listLookup, if_neg he] at h
      exact List.mem_cons_of_mem _ (ih h)

/-! ## Graph closure lemmas -/

theorem Graph.contains_iff {g : Graph} {q : Hash} :
    g.contains q = true ↔ ∃ ps, (q, ps) ∈ g.links := by
  unfold Graph.contains
  exact listLookup_isSome_iff

theorem Graph.contains_listInsert {g : Graph} {k : Hash} {v : List Hash}
    {q : Hash} (h : g.contains q = true) :
    Graph.contains ⟨listInsert g.links k v⟩ q = true := by
  simp only [Graph.contains] at h ⊢
  rw [listLookup_listInsert]
  by_cases hq : q = k
  · rw [if_pos hq]; rfl
  · rw [if_neg hq]; exact h

theorem mem_parentsInsert {ps : List Hash} {p q : Hash} :
    q ∈ parentsInsert ps p ↔ q ∈ ps ∨ q = p := by
  unfold parentsInsert
  split_ifs with h
  · constructor
    · exact Or.inl
    · rintro (h1 | h1)
      · exact h1
      · exact h1 ▸ h
  · simp [List.mem_append]

theorem keysClosed_insertOrphan {g : Graph} (hc : g.keysClosed) (h : Hash) :
    (g.insertOrphan h).keysClosed := by
  intro e he p hp
  rcases mem_listInsert.mp he with h1 | ⟨h1, h2⟩
  · subst h1; simp at hp
  · exact Graph.contains_listInsert (hc e h1 p hp)

theorem keysClosed_insert_aux {g1 : Graph} {h p : Hash} (hc1 : g1.keysClosed)
    (hp1 : g1.contains p = true) :
    Graph.keysClosed
      ⟨listInsert g1.links h (parentsInsert ((g1.getParents h).getD []) p)⟩ := by
  intro e he q hq
  rcases mem_listInsert.mp he with h1 | ⟨h1, h2⟩
  · subst h1
    rcases mem_parentsInsert.mp hq with hq1 | hq1
    · cases hgp : g1.getParents h with
      | none => rw [hgp] at hq1; simp at hq1
      | some ps0 =>
        rw [hgp] at hq1
        simp only [Option.getD_some] at hq1
        have hmem : (h, ps0) ∈ g1.links := listLookup_eq_some_mem hgp
        exact Graph.contains_listInsert (hc1 _ hmem q hq1)
    · subst hq1
      exact Graph.contains_listInsert hp1
  · exact Graph.contains_listInsert (hc1 e h1 q hq)

theorem keysClosed_insert {g : Graph} (hc : g.keysClosed) (h p : Hash) :
    (g.insert h p).keysClosed := by
  have hg1c : (if g.contains p then g else g.insertOrphan p).keysClosed := by
    split_ifs with hgp
    · exact hc
    · exact keysClosed_insertOrphan hc p
  have hg1p : (if g.contains p then g else g.insertOrphan p).contains p = true := by
    split_ifs with hgp
    · exact hgp
    · simp [Graph.insertOrphan, Graph.contains, listLookup_listInsert_self]
  exact keysClosed_insert_aux hg1c hg1p

theorem keysClosed_remove {g : Graph} (hc : g.keysClosed) (h : Hash) :
    (g.remove h).1.keysClosed := by
  intro e he q hq
  obtain ⟨e0, he0, hmap⟩ := List.mem_map.mp he
  subst hmap
  simp only [List.mem_filter, decide_eq_true_eq] at hq
  obtain ⟨hq1, hq2⟩ := hq
  obtain ⟨he1, he2⟩ := mem_listErase.mp he0
  rcases Graph.contains_iff.mp (hc e0 he1 q hq1) with ⟨ps, hps⟩
  apply Graph.contains_iff.mpr
  refine ⟨ps.filter (fun r => decide (r ≠ h)), ?_⟩
  exact List.mem_map.mpr ⟨(q, ps), mem_listErase.mpr ⟨hps, hq2⟩, rfl⟩

theorem keysClosed_foldl_insert (h : Hash) (ps : List Hash) :
    ∀ g : Graph, g.keysClosed → (ps.foldl (fun a p => a.insert h p) g).keysClosed := by
  induction ps with
  | nil => intro g hc; simpa using hc
  | cons p rest ih =>
    intro g hc
    rw [List.foldl_cons]
    exact ih _ (keysClosed_insert hc h p)

theorem keysClosed_extend {g : Graph} (hc : g.keysClosed) (other : Graph) :
    (g.extend other).keysClosed := by
  unfold Graph.extend
  generalize other.links = L
  induction L generalizing g with
  | nil => simpa using hc
  | cons e rest ih =>
    rw [List.foldl_cons]
    exact ih (keysClosed_foldl_insert e.1 e.2 g hc)

theorem keysClosed_upsert {g : Graph} (hc : g.keysClosed) (h : Hash)
    (newParents : List Hash)
    (hnp : ∀ q ∈ newParents, q = h ∨ g.contains q = true) :
    (g.upsert h newParents).1.keysClosed := by
  have hhead : (h, newParents) ∈ listInsert (listErase g.links h) h newParents :=
    mem_listInsert.mpr (Or.inl rfl)
  intro e he q hq
  rcases mem_listInsert.mp he with h1 | ⟨h1, h2⟩
  · subst h1
    rcases hnp q hq with h3 | h3
    · subst h3
      exact Graph.contains_iff.mpr ⟨newParents, hhead⟩
    · rcases Graph.contains_iff.mp h3 with ⟨ps, hps⟩
      by_cases hqh : q = h
      · subst hqh
        exact Graph.contains_iff.mpr ⟨newParents, hhead⟩
      · exact Graph.contains_iff.mpr
          ⟨ps, mem_listInsert.mpr (Or.inr ⟨mem_listErase.mpr ⟨hps, hqh⟩, hqh⟩)⟩
  · obtain ⟨h3, h4⟩ := mem_listErase.mp h1
    rcases Graph.contains_iff.mp (hc e h3 q hq) with ⟨ps, hps⟩
    by_cases hqh : q = h
    · subst hqh
      exact Graph.contains_iff.mpr ⟨newParents, hhead⟩
    · exact Graph.contains_iff.mpr
        ⟨ps, mem_listInsert.mpr (Or.inr ⟨mem_listErase.mpr ⟨hps, hqh⟩, hqh⟩)⟩

/-! ## Claim C5 -/

/-- C5 (amended): insert, insert_orphan, remove and extend preserve the
DAG closure invariant unconditionally; upsert preserves it only when
every new parent is the upserted hash itself or already a key of the
graph (the unconditional statement of the claim fails for upsert, see the
counterexample). -/
theorem graph_ops_preserve_closure :
    (∀ g : Graph, g.keysClosed → ∀ h p : Hash, (g.insert h p).keysClosed) ∧
    (∀ g : Graph, g.keysClosed → ∀ h : Hash, (g.insertOrphan h).keysClosed) ∧
    (∀ g : Graph, g.keysClosed → ∀ h : Hash, (g.remove h).1.keysClosed) ∧
    (∀ g other : Graph, g.keysClosed → (g.extend other).keysClosed) ∧
    (∀ g : Graph, g.keysClosed → ∀ (h : Hash) (newParents : List Hash),
      (∀ q ∈ newParents, q = h ∨ g.contains q = true) →
      (g.upsert h newParents).1.keysClosed) :=
  ⟨fun _ hc h p => keysClosed_insert hc h p,
   fun _ hc h => keysClosed_insertOrphan hc h,
   fun _ hc h => keysClosed_remove hc h,
   fun _ other hc => keysClosed_extend hc other,
   fun _ hc h np hnp => keysClosed_upsert hc h np hnp⟩

/-- Witness for C5: the preservation theorem applied to the one-node
graph at concrete arguments. -/
theorem graph_ops_preserve_closure_witness :
    ((⟨[(1, [])]⟩ : Graph).insert 2 1).keysClosed ∧
    ((⟨[(1, [])]⟩ : Graph).insertOrphan 2).keysClosed ∧
    ((⟨[(1, [])]⟩ : Graph).remove 1).1.keysClosed ∧
    ((⟨[(1, [])]⟩ : Graph).extend ⟨[(1, [])]⟩).keysClosed ∧
    ((⟨[(1, [])]⟩ : Graph).upsert 1 [1]).1.keysClosed :=
  ⟨graph_ops_preserve_closure.1 ⟨[(1, [])]⟩ (by decide) 2 1,
   graph_ops_preserve_closure.2.1 ⟨[(1, [])]⟩ (by decide) 2,
   graph_ops_preserve_closure.2.2.1 ⟨[(1, [])]⟩ (by decide) 1,
   graph_ops_preserve_closure.2.2.2.1 ⟨[(1, [])]⟩ ⟨[(1, [])]⟩ (by decide),
   graph_ops_preserve_closure.2.2.2.2 ⟨[(1, [])]⟩ (by decide) 1 [1] (by decide)⟩

/-- Counterexample for C5 as stated: upsert on the empty (closed) graph
with a dangling parent leaves a parent that is not a key. -/
theorem upsert_breaks_closure :
    Graph.keysClosed (⟨[]⟩ : Graph) ∧
    ¬ Graph.keysClosed ((⟨[]⟩ : Graph).upsert 1 [2]).1 := by
  decide

/-! ## Claim C8 -/

/-- C8: on the chain s1 = 1 <- s2 = 2 <- s3 = 3 with s2 = 2 added to
the trash, trash_contains reports Direct for s2, Indirect(s2) for its
descendant s3, and nothing for the ancestor s1. -/
theorem trash_chain_statuses :
    trashContains chainHistoryW chainTrashW 2 10 = some (some .Direct) ∧
    trashContains chainHistoryW chainTrashW 3 10 = some (some (.Indirect 2)) ∧
    trashContains chainHistoryW chainTrashW 1 10 = some none := by
  decide

/-! ## Claim C2 -/

/-- C2 (code evaluated at the failing input): after recording
CreateBranch dev at hash 10 (with the branch created), undo then redo
leaves dev absent although it was present right after the push, and in
the create-then-rename scenario two undos leave dev still present - both
contradicting the claimed undo / redo laws.  The cause is in
apply_action: its CreateBranch arm removes the branch and its
DeleteBranch arm creates it. -/
theorem undo_redo_create_branch_diverges :
    pushStateW.branches.get "dev" = some 10 ∧
    (undoThenRedo pushStateW pushHistW).map (fun r => r.1.branches.get "dev")
      = some none ∧
    (undoTwice renameStateW renameHistW).map (fun r => r.1.branches.get "dev")
      = some (some 10) := by
  decide

/-! ## Claim C7 -/

/-- C7 (code evaluated at the failing input): undoing
CloseAccount(bob, key 5) does compute the inverse OpenAccount(bob, 5),
but applying it leaves the account closed, because the OpenAccount arm
of apply_action sets closed to true just like the CloseAccount arm. -/
theorem undo_close_account_leaves_closed :
    (undoAction closedStateW closedHistW).map
        (fun r => (r.2.2, (listLookup r.1.users 5).map UserState.closed))
      = some (some (Action.OpenAccount "bob" 5), some true) := by
  decide

/-! ## Claim C1 -/

theorem sha256_foldl_absorbed (files : List (List Nat × List Nat))
    (h : Sha256Hasher) :
    (files.foldl (fun st pf => st.update pf.2) h).absorbed
      = h.absorbed ++ (files.map Prod.snd).flatten := by
  induction files generalizing h with
  | nil => simp
  | cons f rest ih =>
    rw [List.foldl_cons, ih]
    simp [Sha256Hasher.update, List.append_assoc]

/-- C1 (amended): hash_from_parts feeds SHA-256 the author string
bytes, the message bytes, the timestamp seconds as little-endian
8 bytes, and then, for each files entry in sorted-by-path order, only
the content-hash bytes; path bytes and parent hashes are not part of
the hashed sequence. -/
theorem hash_from_parts_input_spec (author message : List Nat) (t : Int)
    (files : List (List Nat × List Nat)) :
    hash_from_parts_input author message t files
      = author ++ message ++ i64LeBytes t ++ (files.map Prod.snd).flatten := by
  unfold hash_from_parts_input
  rw [sha256_foldl_absorbed]
  simp [Sha256Hasher.update, Sha256Hasher.new, List.append_assoc]

/-- Counterexample for C1 as stated: at author byte 0, empty message,
timestamp 1, one file (path bytes 7, content hash bytes 9) and no
parents, the byte sequence hash_from_parts absorbs differs from the
claimed recipe (big-endian timestamp and path bytes included). -/
theorem hash_from_parts_not_claimed_recipe :
    hash_from_parts_input [0] [] 1 [([7], [9])]
      ≠ claimedHashRecipeInput [0] [] 1 [([7], [9])] [] := by
  decide

/-! ## Claim C9 -/

theorem natLeBytes8_length (n : Nat) : (natLeBytes8 n).length = 8 := by
  simp [natLeBytes8]

theorem leBytesToNat_natLeBytes8 {n : Nat} (h : n < 2 ^ 64) :
    leBytesToNat (natLeBytes8 n) = n := by
  have hr : List.range 8 = [0, 1, 2, 3, 4, 5, 6, 7] := rfl
  unfold natLeBytes8 leBytesToNat
  rw [hr]
  simp only [List.map_cons, List.map_nil, List.foldr_cons, List.foldr_nil]
  norm_num
  omega

/-- C9 (amended): every frame Stream::write emits is the 8-byte
little-endian length header followed by exactly the payload bytes, and
Stream::read on such a frame returns exactly the payload, consuming
exactly the frame. -/
theorem stream_frame_little_endian (payload rest : List Nat)
    (h : payload.length < 2 ^ 64) :
    streamWriteFrame payload = natLeBytes8 payload.length ++ payload ∧
    streamReadFrame (streamWriteFrame payload ++ rest)
      = some (payload, rest) := by
  refine ⟨rfl, ?_⟩
  unfold streamWriteFrame streamReadFrame
  rw [List.append_assoc]
  have hlen : (natLeBytes8 payload.length).length = 8 := natLeBytes8_length _
  have hlength : (natLeBytes8 payload.length ++ (payload ++ rest)).length
      = 8 + (payload ++ rest).length := by
    rw [List.length_append, hlen]
  rw [if_neg (by rw [hlength]; omega)]
  have htake : (natLeBytes8 payload.length ++ (payload ++ rest)).take 8
      = natLeBytes8 payload.length := by
    rw [← hlen]
    exact List.take_left _ _
  have hdrop : (natLeBytes8 payload.length ++ (payload ++ rest)).drop 8
      = payload ++ rest := by
    rw [← hlen]
    exact List.drop_left _ _
  rw [htake, hdrop, leBytesToNat_natLeBytes8 h]
  rw [if_neg (by rw [List.length_append]; omega)]
  rw [List.take_left, List.drop_left]

/-- Witness for C9: the little-endian frame law at a 1-byte payload. -/
theorem stream_frame_little_endian_witness :
    streamWriteFrame [42] = natLeBytes8 1 ++ [42] ∧
    streamReadFrame (streamWriteFrame [42] ++ [9, 9])
      = some ([42], [9, 9]) :=
  stream_frame_little_endian [42] [9, 9] (by decide)

/-- Counterexample for C9 as stated: the frame for a 1-byte payload has
its length byte first, not last, so it is not the big-endian frame. -/
theorem stream_frame_not_big_endian :
    streamWriteFrame [42] ≠ claimedBigEndianFrame [42] := by
  decide

/-! ## Claim C6 -/

/-- C6 (amended): the Pull and Push conversations open with the login
handshake - the server first receives the project code of the client and on
a mismatch replies Err(()) and aborts before issuing the secret - but
the Clone conversation does not: its server sends the secret as its
first operation and never receives a project code, and its client never
sends one. -/
theorem login_handshake_pull_push_not_clone :
    handleLoginEvents false = [.recv .projectCode, .send .secretErr] ∧
    (∀ m : Bool, (handleLoginEvents m).head? = some (.recv .projectCode)) ∧
    (∀ u : Bool, (cloneServerEvents u).head? = some (.send .secretOk) ∧
      NetEvent.recv .projectCode ∉ cloneServerEvents u ∧
      (cloneClientEvents u).head? = some (.recv .secretOk) ∧
      NetEvent.send .projectCode ∉ cloneClientEvents u) := by
  refine ⟨rfl, ?_, ?_⟩
  · intro m; cases m <;> rfl
  · intro u; cases u <;> exact ⟨rfl, by decide, rfl, by decide⟩

/-- Counterexample for C6 as stated: the clone server trace does not
open with the project-code handshake - its first operation sends the
secret unconditionally. -/
theorem clone_skips_project_code_handshake :
    ¬ opensWithProjectCodeHandshake (cloneServerEvents true) true := by
  intro h
  exact absurd h.1 (by decide)

/-! ## Claim C10 -/

theorem contains_insert_self {g : Graph} {h p : Hash} :
    (g.insert h p).contains h = true := by
  unfold Graph.insert Graph.contains
  simp [listLookup_listInsert_self]

theorem contains_insert_mono {g : Graph} {q a b : Hash}
    (hq : g.contains q = true) : (g.insert a b).contains q = true := by
  have h1 : (if g.contains b then g else g.insertOrphan b).contains q = true := by
    split_ifs with hgb
    · exact hq
    · exact Graph.contains_listInsert hq
  exact Graph.contains_listInsert h1

theorem contains_foldl_insert (h : Hash) (ps : List Hash) :
    ∀ g : Graph, (g.contains h = true ∨ ps ≠ []) →
      (ps.foldl (fun a p => a.insert h p) g).contains h = true := by
  induction ps with
  | nil =>
    intro g hg
    rcases hg with hg | hg
    · simpa using hg
    · exact absurd rfl hg
  | cons p rest ih =>
    intro g _
    rw [List.foldl_cons]
    exact ih _ (Or.inl contains_insert_self)

/-- C10: when save_snapshot fails (here: the author key of the snapshot
matches no user), the error is returned only after the
parent edges of the snapshot were already inserted into the in-memory DAG, so the
repository state is not left unchanged on error. -/
theorem save_snapshot_mutates_dag_on_error
    (rehashFn : SnapshotRec → Hash) (verifyFn : SnapshotRec → Bool)
    (repo : SaveRepo) (s : SnapshotRec) (p : Hash)
    (huser : listLookup repo.users s.authorKey = none)
    (hp : p ∈ s.parents)
    (hfresh : repo.history.contains (rehashFn s) = false) :
    (saveSnapshot rehashFn verifyFn repo s).2 = false ∧
    (saveSnapshot rehashFn verifyFn repo s).1.history
      = s.parents.foldl (fun g q => g.insert (rehashFn s) q) repo.history ∧
    (saveSnapshot rehashFn verifyFn repo s).1.history.contains (rehashFn s) = true ∧
    (saveSnapshot rehashFn verifyFn repo s).1.history ≠ repo.history := by
  have hnonempty : s.parents ≠ [] := by
    intro hemp
    rw [hemp] at hp
    simp at hp
  have heval : saveSnapshot rehashFn verifyFn repo s
      = ({ repo with
            history := s.parents.foldl (fun g q => g.insert (rehashFn s) q) repo.history },
         false) := by
    unfold saveSnapshot
    simp only [huser, Option.isNone_none, if_true]
  have hcontains :
      (s.parents.foldl (fun g q => g.insert (rehashFn s) q) repo.history).contains
        (rehashFn s) = true :=
    contains_foldl_insert (rehashFn s) s.parents repo.history (Or.inr hnonempty)
  have hne2 : s.parents.foldl (fun g q => g.insert (rehashFn s) q) repo.history
      ≠ repo.history := by
    intro heq
    rw [heq] at hcontains
    rw [hcontains] at hfresh
    simp at hfresh
  exact ⟨by rw [heval], by rw [heval], by rw [heval]; exact hcontains,
    by rw [heval]; exact hne2⟩

/-- Witness for C10: a one-parent snapshot by an unknown author on the
empty repository. -/
theorem save_snapshot_mutates_dag_on_error_witness :
    (listLookup (⟨Graph.empty, [], []⟩ : SaveRepo).users
        (⟨7, [3], 99⟩ : SnapshotRec).authorKey = none ∧
      3 ∈ (⟨7, [3], 99⟩ : SnapshotRec).parents ∧
      (⟨Graph.empty, [], []⟩ : SaveRepo).history.contains 7 = false) ∧
    ((saveSnapshot (fun s => s.hash) (fun _ => true)
        ⟨Graph.empty, [], []⟩ ⟨7, [3], 99⟩).2 = false ∧
      (saveSnapshot (fun s => s.hash) (fun _ => true)
        ⟨Graph.empty, [], []⟩ ⟨7, [3], 99⟩).1.history
        = [3].foldl (fun g q => g.insert 7 q) Graph.empty ∧
      (saveSnapshot (fun s => s.hash) (fun _ => true)
        ⟨Graph.empty, [], []⟩ ⟨7, [3], 99⟩).1.history.contains 7 = true ∧
      (saveSnapshot (fun s => s.hash) (fun _ => true)
        ⟨Graph.empty, [], []⟩ ⟨7, [3], 99⟩).1.history ≠ Graph.empty) :=
  ⟨⟨rfl, by decide, rfl⟩,
   save_snapshot_mutates_dag_on_error (fun s => s.hash) (fun _ => true)
     ⟨Graph.empty, [], []⟩ ⟨7, [3], 99⟩ 3 rfl (by decide) rfl⟩

/-! ## Claim C3 -/

theorem append_local_ne (s : String) : s ++ "-local" ≠ s := by
  intro h
  have h2 := congrArg String.length h
  rw [String.length_append] at h2
  have h3 : ("-local" : String).length = 6 := rfl
  omega

/-- C3: once the set-reconciliation subconversation has delivered the
graph patch of the remote, the merged branch graph decides the result: if
the remote tip descends from the local tip the branch result is
FastForward, otherwise it is Conflict, and applying the Conflict result
extends the local DAG with the merged graph, points the original branch
name at the remote tip, creates name-local at the former local tip, and
records a MoveBranch then a CreateBranch action. -/
theorem pull_divergent_branch_split (st : PullState) (name : String)
    (localTip remoteTip : Hash) (changes bg : Graph) (fuel : Nat) (d : Bool)
    (hb : st.branches.get name = some localTip)
    (hne : localTip ≠ remoteTip)
    (hdfs : dfsGet st.history fuel localTip Graph.empty = some bg)
    (hdesc : (bg.extend changes).isDescendant remoteTip localTip fuel = some d) :
    (d = true →
      clientPullOneBranch st.history st.branches name (some remoteTip) changes fuel
        = some (.FastForward (bg.extend changes) remoteTip)) ∧
    (d = false →
      clientPullOneBranch st.history st.branches name (some remoteTip) changes fuel
        = some (.Conflict (bg.extend changes) localTip remoteTip) ∧
      applyBranchPullResult st name (.Conflict (bg.extend changes) localTip remoteTip)
        = some ⟨st.history.extend (bg.extend changes),
            (st.branches.create (name ++ "-local") localTip).create name remoteTip,
            (st.actions.push (.MoveBranch name localTip remoteTip)).push
              (.CreateBranch (name ++ "-local") localTip)⟩ ∧
      ((st.branches.create (name ++ "-local") localTip).create name remoteTip).get
        name = some remoteTip ∧
      ((st.branches.create (name ++ "-local") localTip).create name remoteTip).get
        (name ++ "-local") = some localTip) := by
  have hrun : clientPullOneBranch st.history st.branches name (some remoteTip) changes fuel
      = if d then some (.FastForward (bg.extend changes) remoteTip)
        else some (.Conflict (bg.extend changes) localTip remoteTip) := by
    unfold clientPullOneBranch
    rw [hb]
    simp only [Option.bind_eq_bind, Option.some_bind]
    rw [if_neg hne, hdfs]
    simp only [Option.bind_eq_bind, Option.some_bind]
    rw [hdesc]
    simp only [Option.bind_eq_bind, Option.some_bind]
  constructor
  · intro hd
    rw [hrun, if_pos hd]
  · intro hd
    subst hd
    refine ⟨by rw [hrun]; rfl, rfl, ?_, ?_⟩
    · exact listLookup_listInsert_self
    · show listLookup (listInsert _ name remoteTip) (name ++ "-local") = some localTip
      rw [listLookup_listInsert, if_neg (append_local_ne name)]
      exact listLookup_listInsert_self

/-- Witness for C3: local chain 1 <- 2 with main at 2, remote tip 3
with parent 1, so the histories have diverged. -/
theorem pull_divergent_branch_split_witness :
    (pullStateW.branches.get "main" = some 2 ∧
      dfsGet pullStateW.history 10 2 Graph.empty = some pullDfsW ∧
      (pullDfsW.extend pullChangesW).isDescendant 3 2 10 = some false) ∧
    (clientPullOneBranch pullStateW.history pullStateW.branches "main"
        (some 3) pullChangesW 10
      = some (.Conflict (pullDfsW.extend pullChangesW) 2 3) ∧
      applyBranchPullResult pullStateW "main"
          (.Conflict (pullDfsW.extend pullChangesW) 2 3)
        = some ⟨pullStateW.history.extend (pullDfsW.extend pullChangesW),
            (pullStateW.branches.create ("main" ++ "-local") 2).create "main" 3,
            (pullStateW.actions.push (.MoveBranch "main" 2 3)).push
              (.CreateBranch ("main" ++ "-local") 2)⟩ ∧
      ((pullStateW.branches.create ("main" ++ "-local") 2).create "main" 3).get
        "main" = some 3 ∧
      ((pullStateW.branches.create ("main" ++ "-local") 2).create "main" 3).get
        ("main" ++ "-local") = some 2) :=
  ⟨⟨rfl, by decide, by decide⟩,
   (pull_divergent_branch_split pullStateW "main" 2 3 pullChangesW pullDfsW 10 false
     rfl (by decide) (by decide) (by decide)).2 rfl⟩

/-! ## Claim C4 -/

/-- C4: with a resolvable basis, save_content stores a Delta whose
original field is the basis exactly when the word-level diff ratio
between the resolved basis and the content is at least
MIN_DELTA_SIMILARITY, falls back to a compressed Literal below it, and
in both cases returns the SHA-256 of the uncompressed content.  The
hypothesis that the basis hash is the hash of its resolved string is
the content-addressing invariant of the store. -/
theorem save_content_similarity_gate (o : ContentOracle) (store : ContentStore)
    (content original : String) (basis : Hash) (fuel : Nat)
    (hfetch : fetchStringContent o store basis fuel = some original)
    (hbasis : o.sha256 original = basis) :
    ∃ store2,
      saveContent o store content (some basis) fuel
        = some (store2, o.sha256 content) ∧
      fetchContentObject store2 (o.sha256 content)
        = some (if MIN_DELTA_SIMILARITY ≤ o.similarity original content
            then Content.Delta basis (o.xdeltaEncode content original)
            else Content.Literal (o.compress content)) ∧
      (fetchContentObject store2 (o.sha256 content)
          = some (Content.Delta basis (o.xdeltaEncode content original))
        ↔ MIN_DELTA_SIMILARITY ≤ o.similarity original content) := by
  by_cases hsim : o.similarity original content < MIN_DELTA_SIMILARITY
  · have hnot : ¬ MIN_DELTA_SIMILARITY ≤ o.similarity original content :=
      not_le.mpr hsim
    refine ⟨saveContentObject store (.Literal (o.compress content)) (o.sha256 content),
      ?_, ?_, ?_⟩
    · simp only [saveContent, saveContentDelta, hfetch, Option.bind_eq_bind, Option.some_bind]
      rw [if_pos hsim]
      rfl
    · rw [if_neg hnot]
      exact listLookup_listInsert_self
    · constructor
      · intro hcontra
        have hlit : fetchContentObject
            (saveContentObject store (.Literal (o.compress content)) (o.sha256 content))
            (o.sha256 content) = some (.Literal (o.compress content)) :=
          listLookup_listInsert_self
        rw [hlit] at hcontra
        simp at hcontra
      · intro hle
        exact absurd hle hnot
  · have hle : MIN_DELTA_SIMILARITY ≤ o.similarity original content :=
      not_lt.mp hsim
    refine ⟨saveContentObject store
        (deltaNewUnchecked o original content) (o.sha256 content), ?_, ?_, ?_⟩
    · simp only [saveContent, saveContentDelta, saveContentDeltaUnchecked,
        hfetch, Option.bind_eq_bind, Option.some_bind]
      rw [if_neg hsim]
    · rw [if_pos hle]
      have hd : deltaNewUnchecked o original content
          = .Delta basis (o.xdeltaEncode content original) := by
        unfold deltaNewUnchecked
        rw [hbasis]
      rw [← hd]
      exact listLookup_listInsert_self
    · have hd : deltaNewUnchecked o original content
          = .Delta basis (o.xdeltaEncode content original) := by
        unfold deltaNewUnchecked
        rw [hbasis]
      constructor
      · intro _; exact hle
      · intro _
        rw [← hd]
        exact listLookup_listInsert_self

/-- Witness for C4: the gate applied to a concrete oracle whose
similarity is constantly 1, a one-literal store and a concrete
content. -/
theorem save_content_similarity_gate_witness :
    (fetchStringContent oracleW storeW 2 1 = some "ab" ∧
      oracleW.sha256 "ab" = 2) ∧
    (∃ store2,
      saveContent oracleW storeW "xy" (some 2) 1
        = some (store2, oracleW.sha256 "xy") ∧
      fetchContentObject store2 (oracleW.sha256 "xy")
        = some (if MIN_DELTA_SIMILARITY ≤ oracleW.similarity "ab" "xy"
            then Content.Delta 2 (oracleW.xdeltaEncode "xy" "ab")
            else Content.Literal (oracleW.compress "xy")) ∧
      (fetchContentObject store2 (oracleW.sha256 "xy")
          = some (Content.Delta 2 (oracleW.xdeltaEncode "xy" "ab"))
        ↔ MIN_DELTA_SIMILARITY ≤ oracleW.similarity "ab" "xy")) :=
  ⟨⟨rfl, rfl⟩,
   save_content_similarity_gate oracleW storeW "xy" "ab" 2 1 rfl rfl⟩

end VCS
